import Mathlib

/-!
Verification of the RustChain ledger (src/blockchain.rs, src/main.rs, src/p2p.rs)
against its natural-language specification.

Shallow embedding conventions:
* `u64` fields (`index`, `timestamp`, `nonce`) are `Nat`; arithmetic that can
  overflow in the source is guarded by `u64Size` (debug-profile Rust panics on
  overflow, modelled by a `crashed` outcome).
* `f32` amounts are modelled as `ℚ` (exact rationals); the Ryu rendering of an
  `f32` used by `serde_json` is modelled by an injective textual rendering of
  the rational.
* Rust `String`s are Lean `String`s; the byte slices fed to the hasher are the
  scalar values of the characters (all strings produced by the program are
  ASCII, where the two coincide).
* The unbounded `while` loop of `mine_block` is modelled with an explicit fuel
  argument; `fuelOut` is a model artefact (the loop is still running), while
  `crashed` models a Rust panic (out-of-bounds slice or integer overflow).
-/

namespace RustChain

/-! ### SHA-256 (the `sha2` crate dependency, implemented from FIPS 180-4) -/

/-- Width of a 32-bit machine word. -/
def m32 : Nat := 4294967296

/-- Width of a 64-bit machine word (`u64` in the source). -/
def u64Size : Nat := 18446744073709551616

/-- Rotate a 32-bit word right by `k` bits. -/
def rotr (k x : Nat) : Nat := ((x / 2 ^ k) + (x % 2 ^ k) * 2 ^ (32 - k)) % m32

/-- Logical shift right by `k` bits. -/
def shr (k x : Nat) : Nat := x / 2 ^ k

/-- Bitwise complement on 32 bits. -/
def not32 (x : Nat) : Nat := Nat.xor x (m32 - 1)

/-- SHA-256 choice function. -/
def chFn (x y z : Nat) : Nat := Nat.xor (Nat.land x y) (Nat.land (not32 x) z)

/-- SHA-256 majority function. -/
def majFn (x y z : Nat) : Nat :=
  Nat.xor (Nat.xor (Nat.land x y) (Nat.land x z)) (Nat.land y z)

/-- SHA-256 big sigma 0. -/
def bigSigma0 (x : Nat) : Nat := Nat.xor (Nat.xor (rotr 2 x) (rotr 13 x)) (rotr 22 x)

/-- SHA-256 big sigma 1. -/
def bigSigma1 (x : Nat) : Nat := Nat.xor (Nat.xor (rotr 6 x) (rotr 11 x)) (rotr 25 x)

/-- SHA-256 small sigma 0. -/
def smallSigma0 (x : Nat) : Nat := Nat.xor (Nat.xor (rotr 7 x) (rotr 18 x)) (shr 3 x)

/-- SHA-256 small sigma 1. -/
def smallSigma1 (x : Nat) : Nat := Nat.xor (Nat.xor (rotr 17 x) (rotr 19 x)) (shr 10 x)

/-- The SHA-256 round constants (FIPS 180-4, rendered in decimal). -/
def roundK : List Nat :=
  [1116352408, 1899447441, 3049323471, 3921009573, 961987163, 1508970993,
   2453635748, 2870763221, 3624381080, 310598401, 607225278, 1426881987,
   1925078388, 2162078206, 2614888103, 3248222580, 3835390401, 4022224774,
   264347078, 604807628, 770255983, 1249150122, 1555081692, 1996064986,
   2554220882, 2821834349, 2952996808, 3210313671, 3336571891, 3584528711,
   113926993, 338241895, 666307205, 773529912, 1294757372, 1396182291,
   1695183700, 1986661051, 2177026350, 2456956037, 2730485921, 2820302411,
   3259730800, 3345764771, 3516065817, 3600352804, 4094571909, 275423344,
   430227734, 506948616, 659060556, 883997877, 958139571, 1322822218,
   1537002063, 1747873779, 1955562222, 2024104815, 2227730452, 2361852424,
   2428436474, 2756734187, 3204031479, 3329325298]

/-- The working state of the compression function: eight 32-bit words. -/
structure Sha256State where
  a : Nat
  b : Nat
  c : Nat
  d : Nat
  e : Nat
  f : Nat
  g : Nat
  h : Nat

/-- The SHA-256 initial hash value (FIPS 180-4, rendered in decimal). -/
def sha256Init : Sha256State :=
  ⟨1779033703, 3144134277, 1013904242, 2773480762,
   1359893119, 2600822924, 528734635, 1541459225⟩

/-- Big-endian 8-byte encoding of the message bit length. -/
def lenBytes (n : Nat) : List Nat :=
  [n / 2 ^ 56 % 256, n / 2 ^ 48 % 256, n / 2 ^ 40 % 256, n / 2 ^ 32 % 256,
   n / 2 ^ 24 % 256, n / 2 ^ 16 % 256, n / 2 ^ 8 % 256, n % 256]

/-- SHA-256 padding: append `0x80`, zero bytes to 56 mod 64, then the bit length. -/
def padMessage (msg : List Nat) : List Nat :=
  msg ++ [128] ++ List.replicate ((64 + 56 - (msg.length + 1) % 64) % 64) 0
      ++ lenBytes (8 * msg.length)

/-- Group bytes four at a time into big-endian 32-bit words. -/
def bytesToWords : List Nat → List Nat
  | b0 :: b1 :: b2 :: b3 :: rest =>
      (b0 * 2 ^ 24 + b1 * 2 ^ 16 + b2 * 2 ^ 8 + b3) % m32 :: bytesToWords rest
  | _ => []

/-- Extend the 16-word schedule `n` more times using the small sigmas. -/
def extendSchedule (ws : List Nat) : Nat → List Nat
  | 0 => ws
  | n + 1 =>
      extendSchedule
        (ws ++ [(smallSigma1 (ws.getD (ws.length - 2) 0) + ws.getD (ws.length - 7) 0
                 + smallSigma0 (ws.getD (ws.length - 15) 0) + ws.getD (ws.length - 16) 0) % m32])
        n

/-- One round of the SHA-256 compression function. -/
def roundStep (st : Sha256State) (kw : Nat × Nat) : Sha256State :=
  let t1 := (st.h + bigSigma1 st.e + chFn st.e st.f st.g + kw.1 + kw.2) % m32
  let t2 := (bigSigma0 st.a + majFn st.a st.b st.c) % m32
  ⟨(t1 + t2) % m32, st.a, st.b, st.c, (st.d + t1) % m32, st.e, st.f, st.g⟩

/-- Compress one 64-byte chunk into the running state. -/
def compress (st : Sha256State) (chunk : List Nat) : Sha256State :=
  let ws := extendSchedule (bytesToWords chunk) 48
  let e := (roundK.zip ws).foldl roundStep st
  ⟨(st.a + e.a) % m32, (st.b + e.b) % m32, (st.c + e.c) % m32, (st.d + e.d) % m32,
   (st.e + e.e) % m32, (st.f + e.f) % m32, (st.g + e.g) % m32, (st.h + e.h) % m32⟩

/-- Split a byte list into chunks of 64. -/
def chunksOf64 (l : List Nat) : List (List Nat) :=
  if h : l = [] then []
  else l.take 64 :: chunksOf64 (l.drop 64)
termination_by l.length
decreasing_by
  have hp : 0 < l.length := List.length_pos.mpr h
  simp [List.length_drop]
  omega

/-- Run the full hash computation, producing the final eight words. -/
def sha256Words (msg : List Nat) : Sha256State :=
  (chunksOf64 (padMessage msg)).foldl compress sha256Init

/-- Big-endian byte serialization of one 32-bit word. -/
def wordBytes (w : Nat) : List Nat :=
  [w / 2 ^ 24 % 256, w / 2 ^ 16 % 256, w / 2 ^ 8 % 256, w % 256]

/-- The 32-byte SHA-256 digest of a byte sequence. -/
def sha256 (msg : List Nat) : List Nat :=
  let s := sha256Words msg
  wordBytes s.a ++ wordBytes s.b ++ wordBytes s.c ++ wordBytes s.d
    ++ wordBytes s.e ++ wordBytes s.f ++ wordBytes s.g ++ wordBytes s.h

/-! ### Lowercase hexadecimal rendering (`format!` with the `x` specifier) -/

/-- The character `0`: genesis `previous_hash` and the mining target digit. -/
def hexZero : Char := '0'

/-- The lowercase hexadecimal alphabet. -/
def hexTable : List Char :=
  ['0', '1', '2', '3'] ++ ['4', '5', '6', '7'] ++ ['8', '9', 'a', 'b'] ++ ['c', 'd', 'e', 'f']

/-- The hex digit for a value below 16. -/
def hexDigit (n : Nat) : Char := hexTable.getD n hexZero

/-- Two lowercase hex characters for one byte. -/
def byteToHex (b : Nat) : List Char := [hexDigit (b / 16), hexDigit (b % 16)]

/-- Lowercase hex rendering of a byte sequence. -/
def bytesToHex : List Nat → List Char
  | [] => []
  | b :: rest => byteToHex b ++ bytesToHex rest

/-- Recognizer for lowercase hexadecimal characters. -/
def isHexDigitLower (c : Char) : Bool :=
  (48 ≤ c.toNat && c.toNat ≤ 57) || (97 ≤ c.toNat && c.toNat ≤ 102)

/-! ### `serde_json` canonicalization of a block

`Block::calculate_hash` builds a `serde_json::json!` object from
`{index, timestamp, transactions, previous_hash, nonce}` and hashes its
compact rendering.  `serde_json`'s default map is ordered by key, so the
object's keys appear alphabetically; nested transactions render their keys
alphabetically as well (`amount`, `receiver`, `sender`). -/

/-- JSON string escaping as performed by `serde_json` (quote, backslash, and
control characters; other characters are passed through). -/
def escapeChar (c : Char) : List Char :=
  if c = '"' then ['\\', '"']
  else if c = '\\' then ['\\', '\\']
  else if c.toNat = 8 then ['\\', 'b']
  else if c.toNat = 9 then ['\\', 't']
  else if c.toNat = 10 then ['\\', 'n']
  else if c.toNat = 12 then ['\\', 'f']
  else if c.toNat = 13 then ['\\', 'r']
  else if c.toNat < 32 then ['\\', 'u', '0', '0', hexDigit (c.toNat / 16), hexDigit (c.toNat % 16)]
  else [c]

/-- A JSON string literal: quoted and escaped. -/
def jsonStr (s : String) : String :=
  String.mk ('"' :: (s.data.flatMap escapeChar ++ ['"']))

/-- Opening brace of a JSON object. -/
def jsonLBrace : String := "\x7b"

/-- Closing brace of a JSON object. -/
def jsonRBrace : String := "\x7d"

/-- Opening bracket of a JSON array. -/
def jsonLBrack : String := "["

/-- Closing bracket of a JSON array. -/
def jsonRBrack : String := "]"

/-- The separator between JSON array elements. -/
def jsonComma : String := ","

/-- Key fragment for the amount field. -/
def keyAmount : String := "\"amount\":"

/-- Key fragment for the receiver field. -/
def keyReceiver : String := ",\"receiver\":"

/-- Key fragment for the sender field. -/
def keySender : String := ",\"sender\":"

/-- Key fragment for the index field. -/
def keyIndex : String := "\"index\":"

/-- Key fragment for the nonce field. -/
def keyNonce : String := ",\"nonce\":"

/-- Key fragment for the previous-hash field. -/
def keyPrevHash : String := ",\"previous_hash\":"

/-- Key fragment for the timestamp field. -/
def keyTimestamp : String := ",\"timestamp\":"

/-- Key fragment for the transactions field. -/
def keyTransactions : String := ",\"transactions\":"

/-- Sign character for negative numbers. -/
def minusSign : String := "-"

/-- Fraction part `serde_json` prints for a whole float. -/
def dotZero : String := ".0"

/-- Separator used by the rational rendering for non-integral amounts. -/
def fracSlash : String := "/"

/-- Textual rendering of an integer. -/
def intRepr (i : Int) : String :=
  if i < 0 then minusSign ++ Nat.repr i.natAbs else Nat.repr i.natAbs

/-- Rendering of an `f32` amount, modelled on the rational value: whole values
render with a `.0` suffix exactly as Ryu prints them, the rest render as an
injective numerator/denominator pair. -/
def ratJson (q : ℚ) : String :=
  if q.den = 1 then intRepr q.num ++ dotZero
  else intRepr q.num ++ fracSlash ++ Nat.repr q.den

/-! ### Ledger data model (src/blockchain.rs) -/

/-- A ledger transaction: `{sender, receiver, amount}`. -/
structure Transaction where
  sender : String
  receiver : String
  amount : ℚ
deriving DecidableEq

/-- A block: `{index, timestamp, transactions, previous_hash, nonce, hash}`. -/
structure Block where
  index : Nat
  timestamp : Nat
  transactions : List Transaction
  previous_hash : String
  nonce : Nat
  hash : String
deriving DecidableEq

/-- The blockchain state:
`{chain, pending_transactions, difficulty, mining_reward}`. -/
structure Blockchain where
  chain : List Block
  pending_transactions : List Transaction
  difficulty : Nat
  mining_reward : ℚ
deriving DecidableEq

/-- Compact JSON rendering of one transaction (keys in map order). -/
def txJson (t : Transaction) : String :=
  jsonLBrace ++ keyAmount ++ ratJson t.amount ++ keyReceiver ++ jsonStr t.receiver
    ++ keySender ++ jsonStr t.sender ++ jsonRBrace

/-- Compact JSON rendering of a transaction list. -/
def txsJson (ts : List Transaction) : String :=
  jsonLBrack ++ String.intercalate jsonComma (ts.map txJson) ++ jsonRBrack

/-- The canonical byte rendering hashed by `calculate_hash`: the compact JSON
object over the five header fields, keys in map order.  The `hash` field is
not part of the rendering. -/
def blockJson (b : Block) : String :=
  jsonLBrace ++ keyIndex ++ Nat.repr b.index ++ keyNonce ++ Nat.repr b.nonce
    ++ keyPrevHash ++ jsonStr b.previous_hash ++ keyTimestamp ++ Nat.repr b.timestamp
    ++ keyTransactions ++ txsJson b.transactions ++ jsonRBrace

/-- Byte sequence of a string (character scalar values; the strings the
program hashes are ASCII, where these are the UTF-8 bytes). -/
def strBytes (s : String) : List Nat := s.data.map Char.toNat

/-- `Block::calculate_hash`: SHA-256 of the canonical JSON rendering of the
five header fields, as lowercase hex. -/
def calculate_hash (b : Block) : String :=
  String.mk (bytesToHex (sha256 (strBytes (blockJson b))))

/-- The genesis `previous_hash` sentinel. -/
def genesisPrev : String := "0"

/-- `Block::new`: nonce 0, then the stored hash is initialized from
`calculate_hash`. -/
def Block.new (index timestamp : Nat) (transactions : List Transaction)
    (previous_hash : String) : Block :=
  let b : Block := ⟨index, timestamp, transactions, previous_hash, 0, String.mk []⟩
  { b with hash := calculate_hash b }

/-- A block with its nonce replaced (helper for stating nonce-search facts). -/
def withNonce (b : Block) (n : Nat) : Block := { b with nonce := n }

/-! ### Proof-of-work mining (`Block::mine_block`)

The Rust loop
`while &self.hash[0..difficulty] != target { self.nonce += 1; self.hash = self.calculate_hash(); }`
is modelled with explicit fuel.  The slice `&self.hash[0..difficulty]`
panics when `difficulty` exceeds the hash's length, and `self.nonce += 1`
panics at `u64::MAX` (debug profile); both panics are the `crashed` outcome.
`fuelOut` means the loop was still running when the fuel ran out. -/

/-- Outcome of the bounded model of the mining loop. -/
inductive MineBlockResult where
  | crashed : MineBlockResult
  | fuelOut : MineBlockResult
  | mined : Block → MineBlockResult
deriving DecidableEq

/-- One iteration of the loop body: increment the nonce, recompute the hash. -/
def nextBlock (b : Block) : Block :=
  let b1 : Block := { b with nonce := b.nonce + 1 }
  { b1 with hash := calculate_hash b1 }

/-- The mining loop with fuel.  The guard re-checks the stored hash before
each step, exactly as the `while` condition does. -/
def mineLoop (difficulty : Nat) : Block → Nat → MineBlockResult
  | b, fuel =>
    if b.hash.data.length < difficulty then .crashed
    else if List.take difficulty b.hash.data = List.replicate difficulty hexZero then .mined b
    else
      match fuel with
      | 0 => .fuelOut
      | fuel + 1 =>
        if b.nonce + 1 < u64Size then mineLoop difficulty (nextBlock b) fuel
        else .crashed

/-- `Block::mine_block`, with fuel. -/
def Block.mine_block (b : Block) (difficulty fuel : Nat) : MineBlockResult :=
  mineLoop difficulty b fuel

/-! ### Blockchain operations -/

/-- The reserved sender identity of mining-reward transactions. -/
def blockchainSender : String := "BLOCKCHAIN"

/-- The reward transaction appended by `mine_pending_transactions`. -/
def rewardTransaction (addr : String) (reward : ℚ) : Transaction :=
  ⟨blockchainSender, addr, reward⟩

/-- The genesis block: `Block::new(0, now, [], "0")`; the timestamp is a
parameter of the model (the source reads the system clock). -/
def genesisBlock (ts : Nat) : Block := Block.new 0 ts [] genesisPrev

/-- `Blockchain::new`: fresh state with one genesis block created by
`create_genesis_block`. -/
def Blockchain.new (difficulty : Nat) (mining_reward : ℚ) (ts : Nat) : Blockchain :=
  ⟨[genesisBlock ts], [], difficulty, mining_reward⟩

/-- `Blockchain::get_latest_block` returns `chain.last()`; the source unwraps
the option (panicking on an empty chain), so the model exposes the option. -/
def Blockchain.get_latest_block (bc : Blockchain) : Option Block :=
  bc.chain.getLast?

/-- `Blockchain::add_transaction`: push onto the pending pool; never fails. -/
def Blockchain.add_transaction (bc : Blockchain) (sender receiver : String)
    (amount : ℚ) : Blockchain :=
  { bc with pending_transactions := bc.pending_transactions ++ [⟨sender, receiver, amount⟩] }

/-- Outcome of `mine_pending_transactions`: the new state, a panic, or an
out-of-fuel model artefact. -/
inductive MineOutcome where
  | crashed : MineOutcome
  | fuelOut : MineOutcome
  | ok : Blockchain → MineOutcome
deriving DecidableEq

/-- The candidate block built inside `mine_pending_transactions`:
`Block::new(latest.index + 1, now, pending_pool_snapshot, latest.hash)`. -/
def candidate_block (latest : Block) (pool : List Transaction) (ts : Nat) : Block :=
  Block.new (latest.index + 1) ts pool latest.hash

/-- The part of `mine_pending_transactions` that runs after the reward
transaction has been pushed: read the latest block, build and mine the
candidate, append it, clear the pool. -/
def minePendingAux (bc1 : Blockchain) (ts fuel : Nat) : MineOutcome :=
  match bc1.chain.getLast? with
  | none => .crashed
  | some latest =>
    if latest.index + 1 < u64Size then
      match Block.mine_block (candidate_block latest bc1.pending_transactions ts)
          bc1.difficulty fuel with
      | .crashed => .crashed
      | .fuelOut => .fuelOut
      | .mined b => .ok ⟨bc1.chain ++ [b], [], bc1.difficulty, bc1.mining_reward⟩
    else .crashed

/-- `Blockchain::mine_pending_transactions`: first push the reward transaction
(`BLOCKCHAIN → mining_reward_address`, amount `mining_reward`) onto the pool,
then mine and append the candidate block and clear the pool. -/
def Blockchain.mine_pending_transactions (bc : Blockchain)
    (mining_reward_address : String) (ts fuel : Nat) : MineOutcome :=
  minePendingAux (bc.add_transaction blockchainSender mining_reward_address bc.mining_reward)
    ts fuel

/-- The validation scan of `is_chain_valid`, walking the chain with the
previous block at hand: first the self-consistency check, then the linkage
check, stopping at the first failure. -/
def chainValidAux (prev : Block) : List Block → Bool
  | [] => true
  | b :: rest =>
    if b.hash ≠ calculate_hash b then false
    else if b.previous_hash ≠ prev.hash then false
    else chainValidAux b rest

/-- `Blockchain::is_chain_valid`: scan from index 1 forward; an empty or
singleton chain is valid. -/
def Blockchain.is_chain_valid (bc : Blockchain) : Bool :=
  match bc.chain with
  | [] => true
  | g :: rest => chainValidAux g rest

/-- One transaction's effect on a balance: `-= amount` when the address is the
sender, then `+= amount` when it is the receiver. -/
def applyTx (address : String) (balance : ℚ) (t : Transaction) : ℚ :=
  let balance := if t.sender = address then balance - t.amount else balance
  if t.receiver = address then balance + t.amount else balance

/-- `Blockchain::get_balance`: fold over every transaction of every block of
the chain (the pending pool is not consulted), starting from zero.  The
function only reads the state. -/
def Blockchain.get_balance (bc : Blockchain) (address : String) : ℚ :=
  bc.chain.foldl (fun bal blk => blk.transactions.foldl (applyTx address) bal) 0

/-- The specification-side signed contribution of one transaction to an
address's balance. -/
def txDelta (address : String) (t : Transaction) : ℚ :=
  (if t.sender = address then -t.amount else 0) + (if t.receiver = address then t.amount else 0)

/-! ### Persistence (spec-modelled)

Modelled from the spec: `Blockchain::save_to_disk` and
`Blockchain::load_from_disk` are invoked by the `SaveChain`/`LoadChain`
dispatcher arms in src/main.rs but their definitions are not part of the
sources; per the spec, save serializes `{chain, pending_transactions}` to an
external byte store keyed by `path`, and load reconstructs a state using the
caller-supplied `difficulty`/`mining_reward` rather than stored values. -/

/-- The persisted value: the chain and the pending pool. -/
structure PersistedChain where
  chain : List Block
  pending_transactions : List Transaction
deriving DecidableEq

/-- The external store, keyed by path. -/
def Disk : Type := String → Option PersistedChain

/-- Modelled from the spec: `save_to_disk` writes `{chain, pending_transactions}`
under the given path. -/
def save_to_disk (bc : Blockchain) (path : String) (disk : Disk) : Disk :=
  fun p => if p = path then some ⟨bc.chain, bc.pending_transactions⟩ else disk p

/-- Modelled from the spec: `load_from_disk` reads the value at the path and
rebuilds a `Blockchain` with the caller-supplied parameters; a missing or
undecodable value is a `PersistenceError`, modelled as `none`, leaving the
in-memory ledger untouched. -/
def load_from_disk (path : String) (difficulty : Nat) (mining_reward : ℚ)
    (disk : Disk) : Option Blockchain :=
  (disk path).map fun s => ⟨s.chain, s.pending_transactions, difficulty, mining_reward⟩

/-! ### Propagation layer (src/p2p.rs)

The tagged wire messages and the Floodsub event handler.  Decoding raw bytes
is performed by the external `serde_json` crate; the model keeps the payload
together with the outcome of that decoding: a payload either decodes to a
`BlockchainMessage` or it is malformed. -/

/-- The tagged gossip message schema. -/
inductive BlockchainMessage where
  | NewBlock : Block → BlockchainMessage
  | NewTransaction : Transaction → BlockchainMessage
  | ChainRequest : BlockchainMessage
  | ChainResponse : List Block → BlockchainMessage
deriving DecidableEq

/-- A gossip payload: either bytes that decode to a tagged message, or
arbitrary bytes that do not. -/
inductive GossipPayload where
  | wellFormed : BlockchainMessage → GossipPayload
  | malformed : List Nat → GossipPayload
deriving DecidableEq

/-- Outcome of `serde_json::from_slice::<BlockchainMessage>` on a payload. -/
def decodeMessage : GossipPayload → Option BlockchainMessage
  | .wellFormed m => some m
  | .malformed _ => none

/-- The responses the behaviour can send toward the event loop. -/
inductive BlockchainResponse where
  | Blocks : List Block → BlockchainResponse
  | Transactions : List Transaction → BlockchainResponse
  | PeerDiscovered : String → BlockchainResponse
  | PeerExpired : String → BlockchainResponse
deriving DecidableEq

/-- An inbound Floodsub message: source peer and payload. -/
structure FloodsubMessage where
  source : String
  data : GossipPayload
deriving DecidableEq

/-- The node-side state the claim is about: the `known_peers` set of `P2P`
and the ledger. -/
structure NodeState where
  known_peers : List String
  ledger : Blockchain
deriving DecidableEq

/-- The Floodsub `inject_event` handler: decode the payload; a decodable
`ChainResponse` forwards a `Blocks` response on the channel, every other
decodable message is only logged, and an undecodable payload falls through
the `if let Ok` with no effect.  The handler never touches the ledger and is
total (no panic). -/
def inject_floodsub_event (st : NodeState) (msg : FloodsubMessage) :
    NodeState × List BlockchainResponse :=
  match decodeMessage msg.data with
  | none => (st, [])
  | some (.NewBlock _) => (st, [])
  | some (.NewTransaction _) => (st, [])
  | some .ChainRequest => (st, [])
  | some (.ChainResponse blocks) => (st, [.Blocks blocks])

/-- The `P2P::run` loop's handling of one channel response: received blocks
and transactions are only logged, peer discovery and expiry update
`known_peers`. -/
def applyResponse (st : NodeState) (r : BlockchainResponse) : NodeState :=
  match r with
  | .Blocks _ => st
  | .Transactions _ => st
  | .PeerDiscovered p =>
    { st with known_peers := if st.known_peers.contains p then st.known_peers
                             else st.known_peers ++ [p] }
  | .PeerExpired p => { st with known_peers := st.known_peers.filter (fun q => q != p) }

/-- End-to-end effect of one inbound gossip message on the node state: the
handler runs, then the event loop consumes every response it emitted. -/
def handleGossip (st : NodeState) (msg : FloodsubMessage) :
    NodeState × List BlockchainResponse :=
  let hr := inject_floodsub_event st msg
  (hr.2.foldl applyResponse hr.1, hr.2)

/-! ### Reachable states and the structural invariant -/

/-- Blockchain states reachable from `Blockchain::new` by `add_transaction`
and successful `mine_pending_transactions` calls (a panicking call never
yields a successor state). -/
inductive Reachable : Blockchain → Prop where
  | init (difficulty : Nat) (reward : ℚ) (ts : Nat) :
      Reachable (Blockchain.new difficulty reward ts)
  | tx (bc : Blockchain) (s r : String) (a : ℚ) :
      Reachable bc → Reachable (bc.add_transaction s r a)
  | mine (bc : Blockchain) (addr : String) (ts fuel : Nat) (bc' : Blockchain) :
      Reachable bc → bc.mine_pending_transactions addr ts fuel = .ok bc' →
      Reachable bc'

/-- Bound transfer for the predecessor index. -/
def prevIdxLt {n : Nat} (i : Nat) (h : i < n) : i - 1 < n :=
  Nat.lt_of_le_of_lt (Nat.sub_le i 1) h

/-- The structural chain invariant of the claim: non-empty chain, genesis
shape at index 0, and hash linkage plus index increment at every later
index. -/
def ChainInv (bc : Blockchain) : Prop :=
  bc.chain ≠ [] ∧
  (∀ h0 : 0 < bc.chain.length,
      (bc.chain.get ⟨0, h0⟩).index = 0 ∧
      (bc.chain.get ⟨0, h0⟩).previous_hash = genesisPrev ∧
      (bc.chain.get ⟨0, h0⟩).transactions = []) ∧
  (∀ i, ∀ h2 : i < bc.chain.length, 1 ≤ i →
      (bc.chain.get ⟨i, h2⟩).previous_hash = (bc.chain.get ⟨i - 1, prevIdxLt i h2⟩).hash ∧
      (bc.chain.get ⟨i, h2⟩).index = (bc.chain.get ⟨i - 1, prevIdxLt i h2⟩).index + 1)

/-- Nonce-search success predicate: trying nonce `n` on block `b` yields a
recomputed hash whose first `d` characters are all zero. -/
def goodNonce (d : Nat) (b : Block) (n : Nat) : Prop :=
  List.take d (calculate_hash (withNonce b n)).data = List.replicate d hexZero

/-- Slice-bounds predicate of `&hash[0..difficulty]`. -/
def sliceInBounds (s : String) (d : Nat) : Prop := d ≤ s.data.length

/-! ### Projections used to state claims about mining outcomes -/

/-- Whether a mining outcome produced a new state. -/
def MineOutcome.isOk : MineOutcome → Bool
  | .ok _ => true
  | _ => false

/-- The pending pool of the state after a successful mine. -/
def MineOutcome.pendingAfter : MineOutcome → Option (List Transaction)
  | .ok bc => some bc.pending_transactions
  | _ => none

/-- The transaction list of the newly appended block after a successful mine. -/
def MineOutcome.lastBlockTxs : MineOutcome → Option (List Transaction)
  | .ok bc => bc.get_latest_block.map Block.transactions
  | _ => none

/-- Claim shape for the difficulty-65 refutation: the call panics for every
fuel, so in particular it never terminates normally and never appends a
block. -/
def minePendingAlwaysCrashes (bc : Blockchain) (addr : String) (ts : Nat) : Prop :=
  ∀ fuel, bc.mine_pending_transactions addr ts fuel = .crashed

/-! ### Concrete fixtures for witnesses and counterexamples -/

/-- A miner address fixture. -/
def addrMiner : String := "Miner1"

/-- An address fixture. -/
def addrAlice : String := "Alice"

/-- An address fixture. -/
def addrBob : String := "Bob"

/-- A transaction fixture. -/
def txAliceBob : Transaction := ⟨addrAlice, addrBob, 50⟩

/-- Difficulty-65 state for the C2 counterexample. -/
def bcC2x : Blockchain := Blockchain.new 65 100 3

/-- Difficulty-0 state for the C2 witness. -/
def bcC2w : Blockchain := Blockchain.new 0 100 11

/-- Difficulty-0 state with one pending transaction for the C3 counterexample. -/
def bcC3x : Blockchain := ⟨[genesisBlock 3], [txAliceBob], 0, 100⟩

/-- Difficulty-0 state for the C3 witness. -/
def bcC3w : Blockchain := ⟨[genesisBlock 4], [⟨addrBob, addrAlice, 7⟩], 0, 25⟩

/-- A stale previous-hash fixture string. -/
def prevFixture : String := "feed"

/-- A non-hash string of length 3. -/
def tagZZZ : String := "zzz"

/-- Hash-field fixture string. -/
def tagAAA : String := "aaa"

/-- Hash-field fixture string. -/
def tagBBB : String := "bbb"

/-- A block whose stored hash (length 3) is not its recomputed digest
(length 64): the C9 counterexample input. -/
def junkBlock : Block := ⟨7, 8, [], prevFixture, 9, tagZZZ⟩

/-- A self-consistent block for the C9 witness. -/
def selfBlock : Block := Block.new 2 3 [] prevFixture

/-- First C7 witness block; agrees with `blkB7` on all hashed fields but has a
different stored hash. -/
def blkA7 : Block := ⟨1, 2, [txAliceBob], prevFixture, 3, tagAAA⟩

/-- Second C7 witness block. -/
def blkB7 : Block := ⟨1, 2, [txAliceBob], prevFixture, 3, tagBBB⟩

/-- A peer-id fixture. -/
def peerP : String := "peer-p"

/-- A gossip source fixture. -/
def peerSrc : String := "peer-src"

/-- Node state fixture for the C8 witness. -/
def nodeStateW : NodeState := ⟨[peerP], Blockchain.new 1 10 3⟩

/-- A malformed gossip message fixture: bytes that do not decode. -/
def malformedMsg : FloodsubMessage := ⟨peerSrc, .malformed [255, 254, 0, 17]⟩

/-! ## Helper lemmas -/

/-- The digest value holds exactly 32 bytes. -/
theorem sha256_length (msg : List Nat) : (sha256 msg).length = 32 := by
  simp [sha256, wordBytes]

/-- Hex rendering doubles the byte count. -/
theorem bytesToHex_length (l : List Nat) : (bytesToHex l).length = 2 * l.length := by
  induction l with
  | nil => rfl
  | cons b rest ih => simp [bytesToHex, byteToHex, ih]; omega

/-- A list lookup with default either falls back to the default or hits an
element of the list. -/
theorem getD_eq_or_mem {α : Type} (l : List α) (n : Nat) (d : α) :
    l.getD n d = d ∨ l.getD n d ∈ l := by
  induction l generalizing n with
  | nil => left; rfl
  | cons a t ih =>
    cases n with
    | zero => right; simp [List.getD]
    | succ m =>
      rcases ih m with h | h
      · left; simpa [List.getD] using h
      · right; simp only [List.getD] at h ⊢
        simpa using Or.inr h

/-- Every produced hex digit is a lowercase hexadecimal character. -/
theorem hexDigit_isHex (n : Nat) : isHexDigitLower (hexDigit n) = true := by
  show isHexDigitLower (hexTable.getD n hexZero) = true
  rcases getD_eq_or_mem hexTable n hexZero with h | h
  · rw [h]; decide
  · exact List.all_eq_true.mp (by decide : hexTable.all isHexDigitLower = true) _ h

/-- Every character of a hex rendering is a lowercase hexadecimal character. -/
theorem bytesToHex_all_hex (l : List Nat) :
    (bytesToHex l).all isHexDigitLower = true := by
  induction l with
  | nil => rfl
  | cons b rest ih =>
    simp [bytesToHex, byteToHex, List.all_cons, ih, hexDigit_isHex]

/-- The hash string always holds exactly 64 characters. -/
theorem calcHash_data_length (b : Block) : (calculate_hash b).data.length = 64 := by
  show (bytesToHex (sha256 (strBytes (blockJson b)))).length = 64
  rw [bytesToHex_length, sha256_length]

/-- The stored hash field is not an input of `calculate_hash`. -/
theorem calcHash_hash_irrel (b : Block) (x : String) :
    calculate_hash { b with hash := x } = calculate_hash b := rfl

/-- Unfolding of the mining loop at fuel zero. -/
theorem mineLoop_zero (d : Nat) (b : Block) :
    mineLoop d b 0 =
      if b.hash.data.length < d then .crashed
      else if List.take d b.hash.data = List.replicate d hexZero then .mined b
      else .fuelOut := rfl

/-- Unfolding of the mining loop at successor fuel. -/
theorem mineLoop_succ (d : Nat) (b : Block) (fuel : Nat) :
    mineLoop d b (fuel + 1) =
      if b.hash.data.length < d then .crashed
      else if List.take d b.hash.data = List.replicate d hexZero then .mined b
      else if b.nonce + 1 < u64Size then mineLoop d (nextBlock b) fuel
      else .crashed := rfl

/-- Stepping the loop body keeps the hash field consistent with the header. -/
theorem nextBlock_selfhash (b : Block) :
    (nextBlock b).hash = calculate_hash (nextBlock b) := rfl

/-- The step block and the original agree after overriding the nonce. -/
theorem calc_withNonce_nextBlock (b : Block) (m : Nat) :
    calculate_hash (withNonce (nextBlock b) m) = calculate_hash (withNonce b m) := rfl

/-- Overriding a nonce with its own value is the identity. -/
theorem withNonce_add_zero (b : Block) : withNonce b (b.nonce + 0) = b := by
  cases b; simp [withNonce]

/-- An out-of-bounds slice makes the loop panic at once, for any fuel. -/
theorem mineLoop_crash_oob (d : Nat) (b : Block) (fuel : Nat)
    (h : b.hash.data.length < d) : mineLoop d b fuel = .crashed := by
  cases fuel with
  | zero => rw [mineLoop_zero, if_pos h]
  | succ f => rw [mineLoop_succ, if_pos h]

/-- A mined result keeps every non-mining field of the input block, and keeps
hash/header consistency whenever the input had it. -/
theorem mineLoop_mined_frame (d : Nat) (fuel : Nat) : ∀ b b' : Block,
    mineLoop d b fuel = .mined b' →
    b'.index = b.index ∧ b'.timestamp = b.timestamp ∧
    b'.transactions = b.transactions ∧ b'.previous_hash = b.previous_hash ∧
    (b.hash = calculate_hash b → b'.hash = calculate_hash b') := by
  induction fuel with
  | zero =>
    intro b b' h
    rw [mineLoop_zero] at h
    split at h
    · exact absurd h (by simp)
    · split at h
      · cases h
        exact ⟨rfl, rfl, rfl, rfl, fun hh => hh⟩
      · exact absurd h (by simp)
  | succ f ih =>
    intro b b' h
    rw [mineLoop_succ] at h
    split at h
    · exact absurd h (by simp)
    · split at h
      · cases h
        exact ⟨rfl, rfl, rfl, rfl, fun hh => hh⟩
      · split at h
        · have hf := ih (nextBlock b) b' h
          exact ⟨hf.1, hf.2.1, hf.2.2.1, hf.2.2.2.1,
            fun _ => hf.2.2.2.2 (nextBlock_selfhash b)⟩
        · exact absurd h (by simp)

/-- A mined result's first `d` hash characters are all zero. -/
theorem mineLoop_mined_take (d : Nat) (fuel : Nat) : ∀ b b' : Block,
    mineLoop d b fuel = .mined b' →
    List.take d b'.hash.data = List.replicate d hexZero := by
  induction fuel with
  | zero =>
    intro b b' h
    rw [mineLoop_zero] at h
    split at h
    · exact absurd h (by simp)
    · split at h
      · cases h; assumption
      · exact absurd h (by simp)
  | succ f ih =>
    intro b b' h
    rw [mineLoop_succ] at h
    split at h
    · exact absurd h (by simp)
    · split at h
      · cases h; assumption
      · split at h
        · exact ih (nextBlock b) b' h
        · exact absurd h (by simp)

/-- If some nonce at offset `k` from the current one satisfies the difficulty
predicate, and neither the slice nor the nonce can overflow along the way,
then the loop terminates within `k` steps on a block whose hash starts with
`d` zeros. -/
theorem mineLoop_success (d : Nat) (k : Nat) : ∀ b : Block, d ≤ 64 →
    b.hash = calculate_hash b → b.nonce + k < u64Size → goodNonce d b (b.nonce + k) →
    ∃ b', mineLoop d b k = .mined b' ∧
      List.take d b'.hash.data = List.replicate d hexZero := by
  induction k with
  | zero =>
    intro b hd hh _ hg
    have hlen : b.hash.data.length = 64 := by rw [hh]; exact calcHash_data_length b
    have hnlt : ¬ b.hash.data.length < d := by omega
    have hgood : List.take d b.hash.data = List.replicate d hexZero := by
      unfold goodNonce at hg
      rw [withNonce_add_zero] at hg
      rw [hh]
      exact hg
    exact ⟨b, by rw [mineLoop_zero, if_neg hnlt, if_pos hgood], hgood⟩
  | succ k ih =>
    intro b hd hh hn hg
    have hlen : b.hash.data.length = 64 := by rw [hh]; exact calcHash_data_length b
    have hnlt : ¬ b.hash.data.length < d := by omega
    by_cases htake : List.take d b.hash.data = List.replicate d hexZero
    · exact ⟨b, by rw [mineLoop_succ, if_neg hnlt, if_pos htake], htake⟩
    · have hstep : b.nonce + 1 < u64Size := by omega
      have hnn : (nextBlock b).nonce = b.nonce + 1 := rfl
      have hg2 : goodNonce d (nextBlock b) ((nextBlock b).nonce + k) := by
        unfold goodNonce at hg ⊢
        rw [calc_withNonce_nextBlock, hnn]
        have harith : b.nonce + 1 + k = b.nonce + (k + 1) := by omega
        rw [harith]
        exact hg
      have hn2 : (nextBlock b).nonce + k < u64Size := by rw [hnn]; omega
      obtain ⟨b', hb', htk⟩ := ih (nextBlock b) hd (nextBlock_selfhash b) hn2 hg2
      exact ⟨b', by rw [mineLoop_succ, if_neg hnlt, if_neg htake, if_pos hstep]; exact hb', htk⟩

/-- Pushing a transaction does not touch the chain. -/
theorem add_transaction_chain (bc : Blockchain) (s r : String) (a : ℚ) :
    (bc.add_transaction s r a).chain = bc.chain := rfl

/-- Pushing a transaction appends it to the pool. -/
theorem add_transaction_pending (bc : Blockchain) (s r : String) (a : ℚ) :
    (bc.add_transaction s r a).pending_transactions
      = bc.pending_transactions ++ [⟨s, r, a⟩] := rfl

/-- Inversion of a successful `mine_pending_transactions` tail. -/
theorem minePendingAux_ok_inv (bc1 : Blockchain) (ts fuel : Nat) (bc' : Blockchain)
    (h : minePendingAux bc1 ts fuel = .ok bc') :
    ∃ latest b, bc1.chain.getLast? = some latest ∧ latest.index + 1 < u64Size ∧
      Block.mine_block (candidate_block latest bc1.pending_transactions ts)
        bc1.difficulty fuel = .mined b ∧
      bc' = ⟨bc1.chain ++ [b], [], bc1.difficulty, bc1.mining_reward⟩ := by
  unfold minePendingAux at h
  split at h
  · exact absurd h (by simp)
  · rename_i latest hl
    split at h
    · rename_i hguard
      split at h
      · exact absurd h (by simp)
      · exact absurd h (by simp)
      · rename_i b hb
        cases h
        exact ⟨latest, b, hl, hguard, hb, rfl⟩
    · exact absurd h (by simp)

/-- Indexing into an append below the left length. -/
theorem get_append_left {α : Type} (l m : List α) (i : Nat) (h : i < l.length)
    (h2 : i < (l ++ m).length) : (l ++ m).get ⟨i, h2⟩ = l.get ⟨i, h⟩ := by
  induction l generalizing i with
  | nil => exact absurd h (Nat.not_lt_zero i)
  | cons a t ih =>
    cases i with
    | zero => rfl
    | succ j => exact ih j (Nat.lt_of_succ_lt_succ h) (Nat.lt_of_succ_lt_succ h2)

/-- Indexing a one-element extension at the old length yields the new element. -/
theorem get_concat_last {α : Type} (l : List α) (b : α)
    (h : l.length < (l ++ [b]).length) : (l ++ [b]).get ⟨l.length, h⟩ = b := by
  induction l with
  | nil => rfl
  | cons a t ih => exact ih (Nat.lt_of_succ_lt_succ h)

/-- The last element sits at index `length - 1`. -/
theorem getLast?_some_get {α : Type} (l : List α) (x : α) (hx : l.getLast? = some x)
    (h : l.length - 1 < l.length) : l.get ⟨l.length - 1, h⟩ = x := by
  induction l with
  | nil => exact absurd hx (by simp)
  | cons a t ih =>
    cases t with
    | nil => simp only [List.getLast?_singleton, Option.some.injEq] at hx; simpa using hx
    | cons bb t2 =>
      have hx2 : (bb :: t2).getLast? = some x := by
        rw [List.getLast?_cons_cons] at hx; exact hx
      exact ih hx2 (by simp)

/-- A freshly built block stores its own digest. -/
theorem blockNew_selfhash (i t : Nat) (txs : List Transaction) (p : String) :
    (Block.new i t txs p).hash = calculate_hash (Block.new i t txs p) := rfl

/-- A freshly built block's hash has 64 characters. -/
theorem blockNew_hash_len (i t : Nat) (txs : List Transaction) (p : String) :
    (Block.new i t txs p).hash.data.length = 64 := by
  rw [blockNew_selfhash]
  exact calcHash_data_length _

/-- Appending one element makes it the last. -/
theorem getLast?_concat_eq {α : Type} (l : List α) (b : α) :
    (l ++ [b]).getLast? = some b := by
  simp

/-- Forward computation of a successful `mine_pending_transactions` tail. -/
theorem minePendingAux_ok (bc1 : Blockchain) (ts fuel : Nat) (latest b : Block)
    (hl : bc1.chain.getLast? = some latest) (hguard : latest.index + 1 < u64Size)
    (hb : Block.mine_block (candidate_block latest bc1.pending_transactions ts)
      bc1.difficulty fuel = .mined b) :
    minePendingAux bc1 ts fuel
      = .ok ⟨bc1.chain ++ [b], [], bc1.difficulty, bc1.mining_reward⟩ := by
  unfold minePendingAux
  simp only [hl, hb, if_pos hguard]

/-- One transaction's fold step equals adding its signed delta. -/
theorem applyTx_eq (address : String) (bal : ℚ) (t : Transaction) :
    applyTx address bal t = bal + txDelta address t := by
  unfold applyTx txDelta
  split_ifs <;> ring

/-- Folding a transaction list accumulates the sum of the deltas. -/
theorem foldl_applyTx (address : String) (ts : List Transaction) : ∀ bal : ℚ,
    ts.foldl (applyTx address) bal = bal + (ts.map (txDelta address)).sum := by
  induction ts with
  | nil => intro bal; simp
  | cons t rest ih =>
    intro bal
    simp only [List.foldl_cons, List.map_cons, List.sum_cons, applyTx_eq, ih]
    ring

/-- Folding over the blocks accumulates the deltas of all their transactions. -/
theorem foldl_blocks (address : String) (blocks : List Block) : ∀ bal : ℚ,
    blocks.foldl (fun bal blk => blk.transactions.foldl (applyTx address) bal) bal
      = bal + ((blocks.flatMap Block.transactions).map (txDelta address)).sum := by
  induction blocks with
  | nil => intro bal; simp
  | cons blk rest ih =>
    intro bal
    rw [List.foldl_cons, ih, foldl_applyTx]
    simp only [List.flatMap_cons, List.map_append, List.sum_append]
    ring

/-! ## Claim theorems -/

/-- C10: for every block, `calculate_hash` returns a string of exactly 64
lowercase hexadecimal characters, so the slice of its first `difficulty`
characters taken by `mine_block` is in bounds exactly when
`difficulty ≤ 64`. -/
theorem calculate_hash_hex64 (b : Block) :
    (calculate_hash b).data.length = 64 ∧
    (calculate_hash b).data.all isHexDigitLower = true ∧
    (∀ d : Nat, sliceInBounds (calculate_hash b) d ↔ d ≤ 64) := by
  refine ⟨calcHash_data_length b, ?_, ?_⟩
  · show (bytesToHex (sha256 (strBytes (blockJson b)))).all isHexDigitLower = true
    exact bytesToHex_all_hex _
  · intro d
    unfold sliceInBounds
    rw [calcHash_data_length b]

/-- C7: `calculate_hash` is a pure function of the five header fields; two
blocks agreeing on `index`, `timestamp`, `transactions`, `previous_hash` and
`nonce` hash identically, whatever their stored `hash` fields are. -/
theorem calculate_hash_deterministic (b1 b2 : Block)
    (hidx : b1.index = b2.index) (hts : b1.timestamp = b2.timestamp)
    (htx : b1.transactions = b2.transactions)
    (hprev : b1.previous_hash = b2.previous_hash)
    (hn : b1.nonce = b2.nonce) : calculate_hash b1 = calculate_hash b2 := by
  have hrec : ({ b1 with hash := tagAAA } : Block) = { b2 with hash := tagAAA } := by
    cases b1; cases b2
    simp_all
  calc calculate_hash b1 = calculate_hash { b1 with hash := tagAAA } :=
        (calcHash_hash_irrel b1 tagAAA).symm
    _ = calculate_hash { b2 with hash := tagAAA } := by rw [hrec]
    _ = calculate_hash b2 := calcHash_hash_irrel b2 tagAAA

/-- Witness for C7: two concrete blocks differing only in the stored hash
field have equal recomputed digests. -/
theorem calculate_hash_deterministic_witness :
    blkA7.index = blkB7.index ∧ blkA7.timestamp = blkB7.timestamp ∧
    blkA7.transactions = blkB7.transactions ∧
    blkA7.previous_hash = blkB7.previous_hash ∧ blkA7.nonce = blkB7.nonce ∧
    blkA7.hash ≠ blkB7.hash ∧ calculate_hash blkA7 = calculate_hash blkB7 :=
  ⟨rfl, rfl, rfl, rfl, rfl, by decide,
    calculate_hash_deterministic blkA7 blkB7 rfl rfl rfl rfl rfl⟩

/-- C6: loading from the path a state was saved to yields a state with the
same chain and pending pool, while `difficulty` and `mining_reward` come from
the caller. -/
theorem load_save_roundtrip (bc : Blockchain) (path : String) (disk : Disk)
    (d : Nat) (r : ℚ) :
    load_from_disk path d r (save_to_disk bc path disk)
      = some ⟨bc.chain, bc.pending_transactions, d, r⟩ := by
  unfold load_from_disk save_to_disk
  simp

/-- C5: `get_balance` returns the sum, over every transaction of every block
of the chain (the pending pool excluded), of the signed amount for the given
address, starting from zero; the state is only read. -/
theorem get_balance_eq_sum (bc : Blockchain) (address : String) :
    bc.get_balance address
      = ((bc.chain.flatMap Block.transactions).map (txDelta address)).sum := by
  unfold Blockchain.get_balance
  rw [foldl_blocks]
  ring

/-- C8: an inbound gossip message whose payload does not decode to a tagged
`BlockchainMessage` is dropped silently: the handler is total (no panic),
sends nothing on the response channel, and neither `known_peers` nor the
ledger changes. -/
theorem malformed_gossip_dropped (st : NodeState) (msg : FloodsubMessage)
    (h : decodeMessage msg.data = none) :
    inject_floodsub_event st msg = (st, []) ∧ handleGossip st msg = (st, []) := by
  have h1 : inject_floodsub_event st msg = (st, []) := by
    unfold inject_floodsub_event
    rw [h]
  refine ⟨h1, ?_⟩
  unfold handleGossip
  rw [h1]
  rfl

/-- The validation scan succeeds exactly when every scanned block is
self-consistent and linked to its predecessor (`prev` standing in for the
element before the scanned segment). -/
theorem chainValidAux_iff (l : List Block) : ∀ prev : Block,
    chainValidAux prev l = true ↔
      ∀ i, ∀ h : i < l.length,
        (l.get ⟨i, h⟩).hash = calculate_hash (l.get ⟨i, h⟩) ∧
        (l.get ⟨i, h⟩).previous_hash
          = ((prev :: l).get ⟨i, Nat.lt_succ_of_lt h⟩).hash := by
  induction l with
  | nil =>
    intro prev
    constructor
    · intro _ i h
      exact absurd h (Nat.not_lt_zero i)
    · intro _
      rfl
  | cons b rest ih =>
    intro prev
    unfold chainValidAux
    by_cases h1 : b.hash = calculate_hash b
    · by_cases h2 : b.previous_hash = prev.hash
      · rw [if_neg (not_not_intro h1), if_neg (not_not_intro h2), ih b]
        constructor
        · intro H i hi
          match i, hi with
          | 0, _ => exact ⟨h1, h2⟩
          | j + 1, hj => exact H j (Nat.lt_of_succ_lt_succ hj)
        · intro H j hj
          exact H (j + 1) (Nat.succ_lt_succ hj)
      · rw [if_neg (not_not_intro h1), if_pos h2]
        constructor
        · intro habs
          exact absurd habs (by simp)
        · intro H
          exact absurd (H 0 (Nat.succ_pos rest.length)).2 h2
    · rw [if_pos h1]
      constructor
      · intro habs
        exact absurd habs (by simp)
      · intro H
        exact absurd (H 0 (Nat.succ_pos rest.length)).1 h1

/-- C1: `is_chain_valid` returns true iff, for every index `i ≥ 1`, the block
at `i` stores its own recomputed digest and its `previous_hash` equals the
stored hash of the block at `i - 1`; the scan starts at index 1, so the
genesis block's own consistency is never checked. -/
theorem is_chain_valid_iff (bc : Blockchain) :
    bc.is_chain_valid = true ↔
      ∀ i, ∀ h2 : i < bc.chain.length, 1 ≤ i →
        (bc.chain.get ⟨i, h2⟩).hash = calculate_hash (bc.chain.get ⟨i, h2⟩) ∧
        (bc.chain.get ⟨i, h2⟩).previous_hash
          = (bc.chain.get ⟨i - 1, prevIdxLt i h2⟩).hash := by
  unfold Blockchain.is_chain_valid
  cases hc : bc.chain with
  | nil =>
    constructor
    · intro _ i h2
      exact absurd h2 (Nat.not_lt_zero i)
    · intro _
      rfl
  | cons g rest =>
    rw [show (match g :: rest with
        | [] => true
        | g :: rest => chainValidAux g rest) = chainValidAux g rest from rfl]
    rw [chainValidAux_iff rest g]
    constructor
    · intro H i h2 h1
      match i, h2, h1 with
      | j + 1, h2, _ => exact H j (Nat.lt_of_succ_lt_succ h2)
    · intro H j hj
      exact H (j + 1) (Nat.succ_lt_succ hj) (Nat.succ_le_succ (Nat.zero_le j))

/-- Appending a block that links to the old last block preserves the
structural chain invariant. -/
theorem chainInv_append (c : List Block) (b latest : Block)
    (hl : c.getLast? = some latest)
    (hbprev : b.previous_hash = latest.hash) (hbidx : b.index = latest.index + 1)
    (hne : c ≠ [])
    (hhead : ∀ h0 : 0 < c.length,
      (c.get ⟨0, h0⟩).index = 0 ∧ (c.get ⟨0, h0⟩).previous_hash = genesisPrev ∧
      (c.get ⟨0, h0⟩).transactions = [])
    (hlink : ∀ i, ∀ h2 : i < c.length, 1 ≤ i →
      (c.get ⟨i, h2⟩).previous_hash = (c.get ⟨i - 1, prevIdxLt i h2⟩).hash ∧
      (c.get ⟨i, h2⟩).index = (c.get ⟨i - 1, prevIdxLt i h2⟩).index + 1) :
    (c ++ [b]) ≠ [] ∧
    (∀ h0 : 0 < (c ++ [b]).length,
      ((c ++ [b]).get ⟨0, h0⟩).index = 0 ∧
      ((c ++ [b]).get ⟨0, h0⟩).previous_hash = genesisPrev ∧
      ((c ++ [b]).get ⟨0, h0⟩).transactions = []) ∧
    (∀ i, ∀ h2 : i < (c ++ [b]).length, 1 ≤ i →
      ((c ++ [b]).get ⟨i, h2⟩).previous_hash
        = ((c ++ [b]).get ⟨i - 1, prevIdxLt i h2⟩).hash ∧
      ((c ++ [b]).get ⟨i, h2⟩).index
        = ((c ++ [b]).get ⟨i - 1, prevIdxLt i h2⟩).index + 1) := by
  have hLlen : (c ++ [b]).length = c.length + 1 := by simp
  refine ⟨by simp, ?_, ?_⟩
  · intro h0
    have h0' : 0 < c.length := List.length_pos.mpr hne
    rw [get_append_left c [b] 0 h0' h0]
    exact hhead h0'
  · intro i h2 h1
    by_cases hcase : i < c.length
    · have hprevlt : i - 1 < c.length := by omega
      rw [get_append_left c [b] i hcase h2,
        get_append_left c [b] (i - 1) hprevlt (prevIdxLt i h2)]
      exact hlink i hcase h1
    · have hieq : i = c.length := by rw [hLlen] at h2; omega
      subst hieq
      have hprevlt : c.length - 1 < c.length := by
        have := List.length_pos.mpr hne; omega
      rw [get_concat_last c b h2,
        get_append_left c [b] (c.length - 1) hprevlt (prevIdxLt c.length h2),
        getLast?_some_get c latest hl hprevlt]
      exact ⟨hbprev, hbidx⟩

/-- C4: every state reachable from `Blockchain::new` by `add_transaction` and
`mine_pending_transactions` has a non-empty chain whose genesis block has
index 0, previous hash "0" and no transactions, and in which every later
block links to its predecessor's stored hash with index one greater. -/
theorem reachable_chain_invariant (bc : Blockchain) (h : Reachable bc) :
    ChainInv bc := by
  induction h with
  | init d r ts =>
    unfold ChainInv
    refine ⟨by simp [Blockchain.new], fun h0 => ⟨rfl, rfl, rfl⟩, fun i h2 h1 => ?_⟩
    have hlen : (Blockchain.new d r ts).chain.length = 1 := rfl
    rw [hlen] at h2
    omega
  | tx bc0 s r a hr ih => exact ih
  | mine bc0 addr ts fuel bc' hr hok ih =>
    obtain ⟨latest, b, hl, hguard, hb, hbc'⟩ :=
      minePendingAux_ok_inv (bc0.add_transaction blockchainSender addr bc0.mining_reward)
        ts fuel bc' hok
    subst hbc'
    have hfr := mineLoop_mined_frame
      (bc0.add_transaction blockchainSender addr bc0.mining_reward).difficulty fuel _ b hb
    have hcp : (candidate_block latest
        (bc0.add_transaction blockchainSender addr bc0.mining_reward).pending_transactions
        ts).previous_hash = latest.hash := rfl
    have hci : (candidate_block latest
        (bc0.add_transaction blockchainSender addr bc0.mining_reward).pending_transactions
        ts).index = latest.index + 1 := rfl
    have hbprev : b.previous_hash = latest.hash := hfr.2.2.2.1.trans hcp
    have hbidx : b.index = latest.index + 1 := hfr.1.trans hci
    obtain ⟨hne, hhead, hlink⟩ := ih
    have hl0 : bc0.chain.getLast? = some latest := hl
    exact chainInv_append bc0.chain b latest hl0 hbprev hbidx hne hhead hlink

/-- Witness for C4: the invariant holds at a concrete freshly created state. -/
theorem reachable_chain_invariant_witness :
    Reachable (Blockchain.new 2 50 9) ∧ ChainInv (Blockchain.new 2 50 9) :=
  ⟨Reachable.init 2 50 9,
    reachable_chain_invariant (Blockchain.new 2 50 9) (Reachable.init 2 50 9)⟩

/-- C9 (amended): on any block whose stored hash is consistent with its
header (as every block built by `Block::new` is), `mine_block` changes only
the nonce and hash fields, and the final hash is the digest of the final
fields. -/
theorem mine_block_frame (b : Block) (d fuel : Nat) (b' : Block)
    (hself : b.hash = calculate_hash b)
    (h : b.mine_block d fuel = .mined b') :
    b'.index = b.index ∧ b'.timestamp = b.timestamp ∧
    b'.transactions = b.transactions ∧ b'.previous_hash = b.previous_hash ∧
    b'.hash = calculate_hash b' := by
  have hf := mineLoop_mined_frame d fuel b b' h
  exact ⟨hf.1, hf.2.1, hf.2.2.1, hf.2.2.2.1, hf.2.2.2.2 hself⟩

/-- Counterexample for C9 as stated: on a block whose stored hash is stale,
`mine_block` at difficulty 0 returns at once and the final hash is not the
digest of the final field values. -/
theorem mine_block_frame_counterexample :
    Block.mine_block junkBlock 0 5 = .mined junkBlock ∧
    junkBlock.hash ≠ calculate_hash junkBlock := by
  refine ⟨rfl, fun hcontra => ?_⟩
  have hlen : junkBlock.hash.data.length = 64 := by
    rw [hcontra]; exact calcHash_data_length junkBlock
  exact absurd hlen (by decide)

/-- Witness for C9: a concrete self-consistent block mined at difficulty 0
keeps its fields and its hash/header consistency. -/
theorem mine_block_frame_witness :
    selfBlock.hash = calculate_hash selfBlock ∧
    Block.mine_block selfBlock 0 0 = .mined selfBlock ∧
    (selfBlock.index = selfBlock.index ∧ selfBlock.timestamp = selfBlock.timestamp ∧
     selfBlock.transactions = selfBlock.transactions ∧
     selfBlock.previous_hash = selfBlock.previous_hash ∧
     selfBlock.hash = calculate_hash selfBlock) :=
  ⟨rfl, rfl, mine_block_frame selfBlock 0 0 selfBlock rfl rfl⟩

/-- C3 (amended): after a successful `mine_pending_transactions`, the pending
pool is empty, and the new block's transaction list is the prior pool
contents with the single reward transaction (reserved sender, the miner's
address, amount `mining_reward`) appended last. -/
theorem mine_pending_pool_reward (bc : Blockchain) (addr : String) (ts fuel : Nat)
    (h : (bc.mine_pending_transactions addr ts fuel).isOk = true) :
    (bc.mine_pending_transactions addr ts fuel).pendingAfter = some [] ∧
    (bc.mine_pending_transactions addr ts fuel).lastBlockTxs
      = some (bc.pending_transactions ++ [rewardTransaction addr bc.mining_reward]) := by
  cases hr : bc.mine_pending_transactions addr ts fuel with
  | crashed => rw [hr] at h; exact absurd h (by simp [MineOutcome.isOk])
  | fuelOut => rw [hr] at h; exact absurd h (by simp [MineOutcome.isOk])
  | ok bc' =>
    obtain ⟨latest, b, hl, hguard, hb, hbc'⟩ :=
      minePendingAux_ok_inv (bc.add_transaction blockchainSender addr bc.mining_reward)
        ts fuel bc' hr
    have htx : b.transactions
        = bc.pending_transactions ++ [rewardTransaction addr bc.mining_reward] :=
      (mineLoop_mined_frame _ fuel _ b hb).2.2.1
    subst hbc'
    refine ⟨rfl, ?_⟩
    show ((bc.add_transaction blockchainSender addr bc.mining_reward).chain
        ++ [b]).getLast?.map Block.transactions = _
    rw [getLast?_concat_eq]
    simp [htx]

/-- Counterexample for C3 as stated: on a concrete state with one pending
transaction, the mined block lists the reward transaction last, not first. -/
theorem reward_appended_last_counterexample :
    (bcC3x.mine_pending_transactions addrMiner 7 0).lastBlockTxs
      = some [txAliceBob, rewardTransaction addrMiner 100] ∧
    some [txAliceBob, rewardTransaction addrMiner 100]
      ≠ some [rewardTransaction addrMiner 100, txAliceBob] := by
  exact ⟨rfl, by decide⟩

/-- Witness for C3: a concrete successful mine empties the pool and appends
the pool-then-reward list. -/
theorem mine_pending_pool_reward_witness :
    (bcC3w.mine_pending_transactions addrMiner 9 0).isOk = true ∧
    (bcC3w.mine_pending_transactions addrMiner 9 0).pendingAfter = some [] ∧
    (bcC3w.mine_pending_transactions addrMiner 9 0).lastBlockTxs
      = some (bcC3w.pending_transactions
          ++ [rewardTransaction addrMiner bcC3w.mining_reward]) :=
  ⟨rfl, (mine_pending_pool_reward bcC3w addrMiner 9 0 rfl).1,
    (mine_pending_pool_reward bcC3w addrMiner 9 0 rfl).2⟩

/-- C2 (amended): when the chain is non-empty, the latest index does not
overflow, `difficulty ≤ 64`, and some nonce offset `k < 2^64` satisfies the
difficulty predicate on the candidate block, `mine_pending_transactions`
terminates within `k` search steps and the appended block's hash has at
least `difficulty` leading zero characters. -/
theorem mine_pending_succeeds (bc : Blockchain) (addr : String) (ts k : Nat)
    (latest : Block) (hl : bc.chain.getLast? = some latest)
    (hguard : latest.index + 1 < u64Size) (hd : bc.difficulty ≤ 64)
    (hk : k < u64Size)
    (hg : goodNonce bc.difficulty
      (candidate_block latest
        (bc.pending_transactions ++ [rewardTransaction addr bc.mining_reward]) ts) k) :
    ∃ bc', bc.mine_pending_transactions addr ts k = .ok bc' ∧
      ∃ b, bc'.get_latest_block = some b ∧
        List.take bc.difficulty b.hash.data = List.replicate bc.difficulty hexZero := by
  have hcself : (candidate_block latest
      (bc.pending_transactions ++ [rewardTransaction addr bc.mining_reward]) ts).hash
      = calculate_hash (candidate_block latest
        (bc.pending_transactions ++ [rewardTransaction addr bc.mining_reward]) ts) := rfl
  have hnk : (candidate_block latest
      (bc.pending_transactions ++ [rewardTransaction addr bc.mining_reward]) ts).nonce + k
      < u64Size := by
    show 0 + k < u64Size
    omega
  have hg2 : goodNonce bc.difficulty
      (candidate_block latest
        (bc.pending_transactions ++ [rewardTransaction addr bc.mining_reward]) ts)
      ((candidate_block latest
        (bc.pending_transactions ++ [rewardTransaction addr bc.mining_reward]) ts).nonce + k) := by
    show goodNonce bc.difficulty _ (0 + k)
    rw [Nat.zero_add]
    exact hg
  obtain ⟨b', hb', htk⟩ := mineLoop_success bc.difficulty k _ hd hcself hnk hg2
  have hmpt : bc.mine_pending_transactions addr ts k
      = .ok ⟨bc.chain ++ [b'], [], bc.difficulty, bc.mining_reward⟩ :=
    minePendingAux_ok (bc.add_transaction blockchainSender addr bc.mining_reward)
      ts k latest b' hl hguard hb'
  refine ⟨_, hmpt, b', ?_, htk⟩
  show (bc.chain ++ [b']).getLast? = some b'
  exact getLast?_concat_eq _ _

/-- Counterexample for C2 as stated: at difficulty 65 the slice
`&hash[0..difficulty]` is out of bounds, so the call panics for every amount
of fuel instead of terminating with an appended block. -/
theorem mine_difficulty65_crashes : minePendingAlwaysCrashes bcC2x addrMiner 7 := by
  intro fuel
  show minePendingAux (bcC2x.add_transaction blockchainSender addrMiner bcC2x.mining_reward)
      7 fuel = .crashed
  have hlen : (candidate_block (genesisBlock 3)
      (bcC2x.add_transaction blockchainSender addrMiner bcC2x.mining_reward).pending_transactions
      7).hash.data.length = 64 := blockNew_hash_len _ _ _ _
  have hcrash : Block.mine_block (candidate_block (genesisBlock 3)
      (bcC2x.add_transaction blockchainSender addrMiner bcC2x.mining_reward).pending_transactions
      7) (bcC2x.add_transaction blockchainSender addrMiner bcC2x.mining_reward).difficulty fuel
      = .crashed := by
    apply mineLoop_crash_oob
    rw [hlen]
    decide
  unfold minePendingAux
  simp only [show (bcC2x.add_transaction blockchainSender addrMiner
      bcC2x.mining_reward).chain.getLast? = some (genesisBlock 3) from rfl, hcrash]
  rw [if_pos (by decide : (genesisBlock 3).index + 1 < u64Size)]

/-- Witness for C2: at difficulty 0 the nonce offset 0 already satisfies the
predicate, and the mine terminates with a (trivially) difficulty-respecting
block. -/
theorem mine_pending_succeeds_witness :
    bcC2w.chain.getLast? = some (genesisBlock 11) ∧
    (genesisBlock 11).index + 1 < u64Size ∧ bcC2w.difficulty ≤ 64 ∧
    (0 : Nat) < u64Size ∧
    goodNonce bcC2w.difficulty
      (candidate_block (genesisBlock 11)
        (bcC2w.pending_transactions ++ [rewardTransaction addrMiner bcC2w.mining_reward]) 12)
      0 ∧
    (∃ bc', bcC2w.mine_pending_transactions addrMiner 12 0 = .ok bc' ∧
      ∃ b, bc'.get_latest_block = some b ∧
        List.take bcC2w.difficulty b.hash.data
          = List.replicate bcC2w.difficulty hexZero) :=
  ⟨rfl, by decide, by decide, by decide, rfl,
    mine_pending_succeeds bcC2w addrMiner 12 0 (genesisBlock 11) rfl
      (by decide) (by decide) (by decide) rfl⟩

/-- Witness for C8: a concrete malformed payload leaves a concrete node state
unchanged and sends nothing. -/
theorem malformed_gossip_dropped_witness :
    decodeMessage malformedMsg.data = none ∧
    inject_floodsub_event nodeStateW malformedMsg = (nodeStateW, []) ∧
    handleGossip nodeStateW malformedMsg = (nodeStateW, []) :=
  ⟨rfl, (malformed_gossip_dropped nodeStateW malformedMsg rfl).1,
    (malformed_gossip_dropped nodeStateW malformedMsg rfl).2⟩

end RustChain
